import Mathlib

/-!
Verification of the career-bridge matching, gap-analysis and roadmap-lifecycle
engine against its specification.

The repository ships the backend's documentation (`src/backend/README.md`), its
SQL migrations, and the frontend, but not the backend implementation itself.
Every component below is therefore modelled from the specification's own words
(each such definition carries a `Modelled from the spec:` doc comment) and the
claims are settled against those models.

Scores are represented in tenths of a percent as naturals (so `66.7` percent is
the natural `667`); `tenthsToPercent` converts back to the rational percentage.
-/

namespace CareerBridge

/-- Modelled from the spec: the SkillSet Normalizer's canonicalisation rule
`canonical(s) = trim(s).toLowerCase()` (§4.1).  Trimming drops leading and
trailing whitespace; lowering maps each character to lower case. -/
def canonical (s : String) : String :=
  ⟨(((s.data.dropWhile (·.isWhitespace)).reverse.dropWhile (·.isWhitespace)).reverse).map
    Char.toLower⟩

/-- Modelled from the spec: the SkillSet Normalizer (§4.1).  Raw strings are
canonicalised, strings that canonicalise to empty are dropped silently, and
duplicates collapse because the result is a set. -/
def normalize (l : List String) : Finset String :=
  ((l.map canonical).filter (fun s => s != "")).toFinset

/-- Modelled from the spec: the score `100 × m / r`, rounded to one decimal
place using round-half-up, represented in tenths of a percent.
`(2000 * m + r) / (2 * r)` is the natural-number form of
`⌊1000 * m / r + 1/2⌋`; the guard for `r = 0` never triggers inside
`matchScore`, which handles the empty-requirement case before dividing. -/
def scoreTenths (m r : Nat) : Nat :=
  if r = 0 then 0 else (2000 * m + r) / (2 * r)

/-- Round-half-up of a rational percentage to one decimal place, expressed in
tenths of a percent: `⌊q × 10 + 1/2⌋`. -/
def roundHalfUpTenths (q : ℚ) : Nat :=
  ⌊q * 10 + 1 / 2⌋₊

/-- Tenths of a percent back to the rational percentage (667 ↦ 66.7). -/
def tenthsToPercent (n : Nat) : ℚ :=
  (n : ℚ) / 10

/-- The Match Scorer's result: score (tenths of a percent), matched and
missing canonical skill sets. -/
structure MatchResult where
  score : Nat
  matched : Finset String
  missing : Finset String
  deriving DecidableEq

/-- Modelled from the spec: the Match Scorer (§4.2).  If `required` is empty,
score 0 with empty matched/missing; otherwise `matched = candidate ∩ required`,
`missing = required − candidate`, and score `100 × |matched| / |required|`
rounded half-up to one decimal. -/
def matchScore (candidate required : Finset String) : MatchResult :=
  if required = ∅ then
    { score := 0, matched := ∅, missing := ∅ }
  else
    let matched := candidate ∩ required
    let missing := required \ candidate
    { score := scoreTenths matched.card required.card
      matched := matched
      missing := missing }

/-- A job posting as the Job Matcher consumes it: an identifier and the
required-skill list (the experience-level/job-type filters are applied at the
storage layer before the core sees the list, so they are not part of the
in-memory model). -/
structure JobPosting where
  id : Nat
  required_skills : List String
  deriving DecidableEq

/-- One entry of the Job Matcher's output: the job plus its MatchResult. -/
structure JobMatch where
  job : JobPosting
  result : MatchResult
  deriving DecidableEq

/-- Modelled from the spec: the Job Matcher's sort order (§4.3), descending by
score with ties broken by ascending job identifier. -/
def jobOrder (a b : JobMatch) : Prop :=
  b.result.score < a.result.score ∨
    (a.result.score = b.result.score ∧ a.job.id ≤ b.job.id)

instance : DecidableRel jobOrder := fun a b => by
  unfold jobOrder
  infer_instance

instance : IsTotal JobMatch jobOrder :=
  ⟨fun a b => by
    unfold jobOrder
    rcases Nat.lt_trichotomy a.result.score b.result.score with h | h | h
    · exact Or.inr (Or.inl h)
    · rcases Nat.le_total a.job.id b.job.id with h2 | h2
      · exact Or.inl (Or.inr ⟨h, h2⟩)
      · exact Or.inr (Or.inr ⟨h.symm, h2⟩)
    · exact Or.inl (Or.inl h)⟩

instance : IsTrans JobMatch jobOrder :=
  ⟨fun _ _ _ hab hbc => by
    unfold jobOrder at *
    omega⟩

/-- Modelled from the spec: scoring of every candidate posting via the Match
Scorer, with the job's required-skill list as `required` (§4.3). -/
def scoreJobs (userSkills : List String) (jobs : List JobPosting) : List JobMatch :=
  jobs.map fun j => ⟨j, matchScore (normalize userSkills) (normalize j.required_skills)⟩

/-- Modelled from the spec: the Job Matcher `recommendJobs` (§4.3) — score all
postings, sort descending by score with id tie-break, then truncate to
`limit` (after sorting, never before). -/
def recommendJobs (userSkills : List String) (jobs : List JobPosting) (limit : Nat) :
    List JobMatch :=
  (List.insertionSort jobOrder (scoreJobs userSkills jobs)).take limit

/-- Modelled from the spec: `recommendJobs` with the default limit of 10. -/
def recommendJobsDefault (userSkills : List String) (jobs : List JobPosting) : List JobMatch :=
  recommendJobs userSkills jobs 10

/-- A learning resource as the Resource Recommender consumes it: an identifier
and the related-skill list. -/
structure LearningResource where
  id : Nat
  related_skills : List String
  deriving DecidableEq

/-- Modelled from the spec: the Learning Resource Recommender's relevance
(§4.4): `relevance = 100 × |related_skills − candidate| / |related_skills|`
(in tenths of a percent), 0 when `related_skills` is empty. -/
def relevance (candidate : Finset String) (res : LearningResource) : Nat :=
  let related := normalize res.related_skills
  if related = ∅ then 0 else scoreTenths (related \ candidate).card related.card

/-- One entry of the Resource Recommender's output. -/
structure ResourceMatch where
  resource : LearningResource
  relevance : Nat
  deriving DecidableEq

/-- Modelled from the spec: the Resource Recommender's sort order (§4.4),
descending relevance with ties broken by ascending resource identifier. -/
def resOrder (a b : ResourceMatch) : Prop :=
  b.relevance < a.relevance ∨ (a.relevance = b.relevance ∧ a.resource.id ≤ b.resource.id)

instance : DecidableRel resOrder := fun a b => by
  unfold resOrder
  infer_instance

instance : IsTotal ResourceMatch resOrder :=
  ⟨fun a b => by
    unfold resOrder
    rcases Nat.lt_trichotomy a.relevance b.relevance with h | h | h
    · exact Or.inr (Or.inl h)
    · rcases Nat.le_total a.resource.id b.resource.id with h2 | h2
      · exact Or.inl (Or.inr ⟨h, h2⟩)
      · exact Or.inr (Or.inr ⟨h.symm, h2⟩)
    · exact Or.inl (Or.inl h)⟩

instance : IsTrans ResourceMatch resOrder :=
  ⟨fun _ _ _ hab hbc => by
    unfold resOrder at *
    omega⟩

/-- Modelled from the spec: the Learning Resource Recommender
`recommendResources` (§4.4) — score every resource by relevance and sort
descending with id tie-break. -/
def recommendResources (userSkills : List String) (resources : List LearningResource) :
    List ResourceMatch :=
  List.insertionSort resOrder
    (resources.map fun r => ⟨r, relevance (normalize userSkills) r⟩)

/-- The Skill Gap Analyzer's result value. -/
structure GapAnalysis where
  requiredSkills : Finset String
  skillGaps : Finset String
  matchingSkills : Finset String
  matchPercentage : Nat
  deriving DecidableEq

/-- Modelled from the spec: the union of the normalized required-skill sets
across the selected job postings (§4.5). -/
def unionRequired (jobsReq : List (List String)) : Finset String :=
  jobsReq.foldr (fun req acc => normalize req ∪ acc) ∅

/-- Modelled from the spec: the Skill Gap Analyzer `analyzeSkillGap` (§4.5) —
aggregate required skills across the selected postings, then
`matchingSkills = candidate ∩ required`, `skillGaps = required − candidate`,
and `matchPercentage` by the Match Scorer's formula. -/
def analyzeSkillGap (userSkills : List String) (jobsReq : List (List String)) : GapAnalysis :=
  let candidate := normalize userSkills
  let required := unionRequired jobsReq
  { requiredSkills := required
    skillGaps := required \ candidate
    matchingSkills := candidate ∩ required
    matchPercentage := (matchScore candidate required).score }

/-- The core's error taxonomy (§7), restricted to the kinds the claims
exercise. -/
inductive CoreError where
  | NotFound
  | InvalidInput
  | MalformedAiResponse
  deriving DecidableEq

/-- JSON values, as the AI Extraction Orchestrator's parser produces them. -/
inductive Json where
  | null : Json
  | bool : Bool → Json
  | num : Int → Json
  | str : String → Json
  | arr : List Json → Json
  | obj : List (String × Json) → Json

/-- JSON insignificant whitespace. -/
def isJsonWs (c : Char) : Bool :=
  (c == ' ') || (c == '\n') || (c == '\t') || (c == '\r')

/-- Drop leading JSON whitespace. -/
def skipWs : List Char → List Char
  | [] => []
  | c :: cs => if isJsonWs c then skipWs cs else c :: cs

/-- Resolve a backslash escape inside a JSON string literal. -/
def unescape (c : Char) : Char :=
  if c = 'n' then '\n' else if c = 't' then '\t' else if c = 'r' then '\r' else c

/-- Parse the body of a JSON string literal (the opening quote already
consumed), returning the decoded characters and the remainder after the
closing quote. -/
def parseStrBody : List Char → Option (List Char × List Char)
  | [] => none
  | c :: cs =>
    if c = '"' then some ([], cs)
    else if c = '\\' then
      match cs with
      | [] => none
      | e :: cs2 =>
        match parseStrBody cs2 with
        | some (acc, rest) => some (unescape e :: acc, rest)
        | none => none
    else
      match parseStrBody cs with
      | some (acc, rest) => some (c :: acc, rest)
      | none => none

/-- Numeric value of a decimal digit character. -/
def digitVal (c : Char) : Nat :=
  c.toNat - 48

/-- Split a character list into its leading run of decimal digits and the
rest. -/
def takeDigits : List Char → List Char × List Char
  | [] => ([], [])
  | c :: cs =>
    if c.isDigit then
      let (ds, rest) := takeDigits cs
      (c :: ds, rest)
    else ([], c :: cs)

/-- Natural number denoted by a digit run. -/
def digitsToNat (ds : List Char) : Nat :=
  ds.foldl (fun n c => 10 * n + digitVal c) 0

mutual

/-- Modelled from the spec: a recursive-descent JSON value parser (the strict
parse of §4.6); the fuel argument bounds recursion depth and is set from the
input length by `parseJson`. -/
def parseValue : Nat → List Char → Option (Json × List Char)
  | 0, _ => none
  | Nat.succ fuel, cs =>
    match skipWs cs with
    | '{' :: rest =>
      (match skipWs rest with
       | '}' :: rest2 => some (.obj [], rest2)
       | _ =>
         match parseMembers fuel (skipWs rest) with
         | some (ms, rest2) => some (.obj ms, rest2)
         | none => none)
    | '[' :: rest =>
      (match skipWs rest with
       | ']' :: rest2 => some (.arr [], rest2)
       | _ =>
         match parseElems fuel (skipWs rest) with
         | some (es, rest2) => some (.arr es, rest2)
         | none => none)
    | '"' :: rest =>
      (match parseStrBody rest with
       | some (body, rest2) => some (.str ⟨body⟩, rest2)
       | none => none)
    | 't' :: 'r' :: 'u' :: 'e' :: rest => some (.bool true, rest)
    | 'f' :: 'a' :: 'l' :: 's' :: 'e' :: rest => some (.bool false, rest)
    | 'n' :: 'u' :: 'l' :: 'l' :: rest => some (.null, rest)
    | '-' :: rest =>
      (match takeDigits rest with
       | ([], _) => none
       | (ds, rest2) => some (.num (-(digitsToNat ds : Int)), rest2))
    | c :: rest =>
      if c.isDigit then
        match takeDigits (c :: rest) with
        | (ds, rest2) => some (.num (digitsToNat ds), rest2)
      else none
    | [] => none

/-- Members of a JSON object after the opening brace (at least one member). -/
def parseMembers : Nat → List Char → Option (List (String × Json) × List Char)
  | 0, _ => none
  | Nat.succ fuel, cs =>
    match skipWs cs with
    | '"' :: rest =>
      (match parseStrBody rest with
       | some (key, rest2) =>
         (match skipWs rest2 with
          | ':' :: rest3 =>
            (match parseValue fuel rest3 with
             | some (v, rest4) =>
               (match skipWs rest4 with
                | ',' :: rest5 =>
                  (match parseMembers fuel rest5 with
                   | some (ms, rest6) => some ((⟨key⟩, v) :: ms, rest6)
                   | none => none)
                | '}' :: rest5 => some ([(⟨key⟩, v)], rest5)
                | _ => none)
             | none => none)
          | _ => none)
       | none => none)
    | _ => none

/-- Elements of a JSON array after the opening bracket (at least one
element). -/
def parseElems : Nat → List Char → Option (List Json × List Char)
  | 0, _ => none
  | Nat.succ fuel, cs =>
    match parseValue fuel cs with
    | some (v, rest) =>
      (match skipWs rest with
       | ',' :: rest2 =>
         (match parseElems fuel rest2 with
          | some (es, rest3) => some (v :: es, rest3)
          | none => none)
       | ']' :: rest2 => some ([v], rest2)
       | _ => none)
    | none => none

end

/-- Modelled from the spec: the strict JSON parse of a provider response
(§4.6) — the whole response must be a single JSON value up to surrounding
whitespace. -/
def parseJson (s : String) : Option Json :=
  match parseValue (s.length + 1) s.data with
  | some (j, rest) => if skipWs rest = [] then some j else none
  | none => none

/-- Drop characters up to (and keeping) the first opening brace. -/
def afterFirstBrace : List Char → Option (List Char)
  | [] => none
  | c :: cs => if c = '{' then some (c :: cs) else afterFirstBrace cs

/-- Scan a balanced-brace run starting at an opening brace, accumulating the
characters (reversed) until the matching closing brace. -/
def braceScan (depth : Nat) (acc : List Char) : List Char → Option (List Char)
  | [] => none
  | c :: cs =>
    if c = '{' then braceScan (depth + 1) (c :: acc) cs
    else if c = '}' then
      if depth = 1 then some (c :: acc).reverse
      else braceScan (depth - 1) (c :: acc) cs
    else braceScan depth (c :: acc) cs

/-- Modelled from the spec: the first balanced-brace substring of the
response (§4.6), used as the fallback parse input when the strict parse
fails. -/
def firstBraceSubstring (s : String) : Option String :=
  match afterFirstBrace s.data with
  | some cs =>
    match braceScan 0 [] cs with
    | some sub => some ⟨sub⟩
    | none => none
  | none => none

/-- Modelled from the spec: the AI Extraction Orchestrator's parsing policy
(§4.6) — strict JSON parse first, then the first balanced-brace substring,
and a `MalformedAiResponse` error when both fail. -/
def extractJson (response : String) : Except CoreError Json :=
  match parseJson response with
  | some j => Except.ok j
  | none =>
    match firstBraceSubstring response with
    | some sub =>
      match parseJson sub with
      | some j => Except.ok j
      | none => Except.error CoreError.MalformedAiResponse
    | none => Except.error CoreError.MalformedAiResponse

/-- One technical skill as extracted from the provider's JSON. -/
structure SkillInput where
  name : String
  proficiency : Option String
  category : Option String
  deriving DecidableEq

/-- A persisted `extracted_skills` row for one user (timestamps and audit
fields omitted: the claims are about the merged skill data). -/
structure ExtractedSkillRecord where
  skill_name : String
  proficiency : Option String
  category : Option String
  deriving DecidableEq

/-- Refresh an existing row in place when its key matches the extracted
skill's canonical name. -/
def refreshRec (x : SkillInput) (r : ExtractedSkillRecord) : ExtractedSkillRecord :=
  if r.skill_name == canonical x.name then
    { r with proficiency := x.proficiency, category := x.category }
  else r

/-- The fresh row inserted for a previously unseen skill. -/
def newRec (x : SkillInput) : ExtractedSkillRecord :=
  { skill_name := canonical x.name, proficiency := x.proficiency, category := x.category }

/-- Modelled from the spec: the upsert of one extracted skill into the user's
`extracted_skills` rows, keyed by `canonical(skill_name)` (§4.6): existing
rows are updated rather than duplicated, otherwise a row is inserted. -/
def upsertSkill (recs : List ExtractedSkillRecord) (x : SkillInput) :
    List ExtractedSkillRecord :=
  if recs.any fun r => r.skill_name == canonical x.name then recs.map (refreshRec x)
  else recs ++ [newRec x]

/-- Modelled from the spec: upserting every extracted technical skill in
order (§4.6). -/
def mergeRecords (recs : List ExtractedSkillRecord) (xs : List SkillInput) :
    List ExtractedSkillRecord :=
  xs.foldl upsertSkill recs

/-- Modelled from the spec: the user's raw skill list is extended with any
extracted name not already present (canonically), preserving the original
casing of the first occurrence (§4.6). -/
def addRawSkill (raw : List String) (name : String) : List String :=
  if raw.any fun s => canonical s == canonical name then raw else raw ++ [name]

/-- Modelled from the spec: extending the raw skill list by every extracted
skill name in order (§4.6). -/
def mergeRaw (raw : List String) (xs : List SkillInput) : List String :=
  xs.foldl (fun acc x => addRawSkill acc x.name) raw

/-- One user's persisted skill state: the `extracted_skills` rows and the raw
profile skill list. -/
structure UserSkillState where
  records : List ExtractedSkillRecord
  rawSkills : List String
  deriving DecidableEq

/-- Modelled from the spec: the persistence step of `extractAndMerge` with
`updateProfile = true` — upsert every extracted technical skill and extend
the raw skill list (§4.6). -/
def mergeExtracted (st : UserSkillState) (xs : List SkillInput) : UserSkillState :=
  { records := mergeRecords st.records xs, rawSkills := mergeRaw st.rawSkills xs }

/-- The key column of the rows: the skill names in row order. -/
def keysOf (recs : List ExtractedSkillRecord) : List String :=
  recs.map ExtractedSkillRecord.skill_name

/-- The row stored under a key (first matching row). -/
def lookupRec (recs : List ExtractedSkillRecord) (k : String) : Option ExtractedSkillRecord :=
  recs.find? fun r => r.skill_name == k

/-- Key-list growth of a single upsert. -/
def keyInsert (K : List String) (k : String) : List String :=
  if k ∈ K then K else K ++ [k]

/-- Key-list growth of a whole merge. -/
def keyFold (K : List String) (xs : List SkillInput) : List String :=
  xs.foldl (fun K x => keyInsert K (canonical x.name)) K

/-- The last extracted skill whose canonical name is `k`. -/
def lastMatch (xs : List SkillInput) (k : String) : Option SkillInput :=
  xs.reverse.find? fun x => canonical x.name == k

/-- One stage of a career roadmap: topics plus optional enrichment fields. -/
structure RoadmapPhase where
  phase_number : Nat
  title : String
  topics : List String
  technologies : List String
  resources : List String
  deriving DecidableEq

/-- The AI-returned roadmap structure persisted as `roadmap_data`. -/
structure RoadmapData where
  phases : List RoadmapPhase
  project_suggestions : List String
  job_application_timing : String
  deriving DecidableEq

/-- A persisted `career_roadmaps` row (timestamps omitted). -/
structure CareerRoadmap where
  id : Nat
  user_id : Nat
  title : String
  target_role : String
  roadmap_data : RoadmapData
  progress_percentage : Nat
  completed_phases : List Nat
  notes : String
  deriving DecidableEq

/-- Modelled from the spec: `updateProgress` of the Roadmap Lifecycle Manager
(§4.7) — `NotFound` when no roadmap with this id is owned by the caller
(ownership failures reported identically to non-existence), otherwise a full
replace of `progress_percentage`, `completed_phases` and `notes`.  The pair
returned is the operation's result and the store's state afterwards. -/
def updateRoadmapProgress (db : List CareerRoadmap) (rid owner pct : Nat)
    (phases : List Nat) (notes : String) :
    Except CoreError CareerRoadmap × List CareerRoadmap :=
  match db.find? fun r => r.id == rid && r.user_id == owner with
  | none => (Except.error CoreError.NotFound, db)
  | some r =>
    (Except.ok { r with progress_percentage := pct, completed_phases := phases, notes := notes },
      db.map fun q =>
        if q.id == rid && q.user_id == owner then
          { q with progress_percentage := pct, completed_phases := phases, notes := notes }
        else q)

/-- Modelled from the spec: the Create validation gate (§4.7) — the structure
must have at least one phase with a non-empty topics list. -/
def validRoadmap (d : RoadmapData) : Bool :=
  d.phases.any fun p => !p.topics.isEmpty

/-- Modelled from the spec: Create of the Roadmap Lifecycle Manager (§4.7) —
reject structurally invalid AI output without persisting, otherwise persist
the roadmap with `progress_percentage = 0` and no completed phases. -/
def createRoadmap (db : List CareerRoadmap) (newId owner : Nat) (title role : String)
    (d : RoadmapData) : Except CoreError CareerRoadmap × List CareerRoadmap :=
  if validRoadmap d then
    let r : CareerRoadmap :=
      { id := newId, user_id := owner, title := title, target_role := role,
        roadmap_data := d, progress_percentage := 0, completed_phases := [], notes := "" }
    (Except.ok r, db ++ [r])
  else (Except.error CoreError.InvalidInput, db)

theorem scoreTenths_eq_roundHalfUp (m r : Nat) (hr : r ≠ 0) :
    scoreTenths m r = roundHalfUpTenths ((100 * m : ℚ) / r) := by
  have hr' : (r : ℚ) ≠ 0 := Nat.cast_ne_zero.mpr hr
  have h1 : (100 * m : ℚ) / r * 10 + 1 / 2 = ((2000 * m + r : ℕ) : ℚ) / ((2 * r : ℕ) : ℚ) := by
    push_cast
    field_simp
    ring
  rw [roundHalfUpTenths, h1, Nat.floor_div_nat, Nat.floor_natCast, scoreTenths, if_neg hr]

/-- C1: for every candidate skill set and every non-empty required skill set,
the Match Scorer returns `matched = candidate ∩ required`,
`missing = required − candidate`, and `score = 100 × |matched| / |required|`
rounded to one decimal place using round-half-up; in particular, for candidate
`{"javascript","react"}` and required list `["JavaScript","React","CSS"]` the
result is score 66.7 (667 tenths), matched `{javascript, react}`, missing
`{css}`. -/
theorem C1_match_scorer_formula (candidate required : Finset String)
    (h : required ≠ ∅) :
    (matchScore candidate required).matched = candidate ∩ required ∧
    (matchScore candidate required).missing = required \ candidate ∧
    (matchScore candidate required).score
      = roundHalfUpTenths ((100 * (candidate ∩ required).card : ℚ) / required.card) ∧
    matchScore (normalize ["javascript", "react"]) (normalize ["JavaScript", "React", "CSS"])
      = { score := 667, matched := {"javascript", "react"}, missing := {"css"} } ∧
    tenthsToPercent 667 = 66.7 := by
  have hcard : required.card ≠ 0 := by
    simpa [Finset.card_eq_zero] using h
  refine ⟨?_, ?_, ?_, by decide, by norm_num [tenthsToPercent]⟩
  · simp [matchScore, if_neg h]
  · simp [matchScore, if_neg h]
  · simp only [matchScore, if_neg h]
    exact scoreTenths_eq_roundHalfUp _ _ hcard

theorem C1_match_scorer_formula_witness :
    (matchScore {"go"} {"go", "rust"}).matched = {"go"} ∩ {"go", "rust"} :=
  (C1_match_scorer_formula {"go"} {"go", "rust"} (by decide)).1

/-- C2: for every candidate skill set, when the required skill set is empty the
Match Scorer returns score 0 (not 100) with matched and missing both empty; in
the model the score formula's division sits behind the `required = ∅` guard,
so `scoreTenths` is never applied with `|required| = 0` by `matchScore`, and
even its own `r = 0` guard returns 0 without dividing. -/
theorem C2_empty_required_scores_zero (candidate : Finset String) :
    matchScore candidate ∅ = { score := 0, matched := ∅, missing := ∅ } ∧
    scoreTenths (candidate ∩ ∅).card 0 = 0 := by
  constructor
  · simp [matchScore]
  · simp [scoreTenths]

/-- C3: for every user skill list, job list and limit, `recommendJobs` returns
a list sorted non-increasing by score with ties broken by ascending job id,
of length at most `limit` (default 10), equal to the full sorted list
truncated to `limit` only after sorting; consequently every scored job left
out of the output has a score no higher than any job kept. -/
theorem C3_recommend_jobs_sorted_truncated (userSkills : List String)
    (jobs : List JobPosting) (limit : Nat) :
    (recommendJobs userSkills jobs limit).Sorted jobOrder ∧
    (recommendJobs userSkills jobs limit).length ≤ limit ∧
    recommendJobs userSkills jobs limit
      = (List.insertionSort jobOrder (scoreJobs userSkills jobs)).take limit ∧
    recommendJobsDefault userSkills jobs = recommendJobs userSkills jobs 10 ∧
    (∀ x ∈ recommendJobs userSkills jobs limit, ∀ y ∈ scoreJobs userSkills jobs,
      y ∈ recommendJobs userSkills jobs limit ∨ y.result.score ≤ x.result.score) := by
  have hsorted : (List.insertionSort jobOrder (scoreJobs userSkills jobs)).Sorted jobOrder :=
    List.sorted_insertionSort jobOrder _
  refine ⟨?_, ?_, rfl, rfl, ?_⟩
  · exact List.Pairwise.sublist (List.take_sublist _ _) hsorted
  · exact le_trans (List.length_take_le _ _) le_rfl
  · intro x hx y hy
    have hyS : y ∈ List.insertionSort jobOrder (scoreJobs userSkills jobs) :=
      (List.perm_insertionSort jobOrder _).mem_iff.mpr hy
    rw [← List.take_append_drop limit
      (List.insertionSort jobOrder (scoreJobs userSkills jobs))] at hyS
    rcases List.mem_append.mp hyS with h | h
    · exact Or.inl h
    · right
      have hp : ((List.insertionSort jobOrder (scoreJobs userSkills jobs)).take limit ++
          (List.insertionSort jobOrder (scoreJobs userSkills jobs)).drop limit).Pairwise
            jobOrder := by
        rw [List.take_append_drop]
        exact hsorted
      have hrel := (List.pairwise_append.mp hp).2.2 x hx y h
      rcases hrel with h1 | h1
      · exact le_of_lt h1
      · exact le_of_eq h1.1.symm

theorem scoreTenths_zero (r : Nat) : scoreTenths 0 r = 0 := by
  unfold scoreTenths
  rcases Nat.eq_zero_or_pos r with h | h
  · simp [h]
  · have : r ≠ 0 := Nat.pos_iff_ne_zero.mp h
    simp only [this, if_false]
    exact Nat.div_eq_of_lt (by omega)

theorem scoreTenths_self (r : Nat) (h : r ≠ 0) : scoreTenths r r = 1000 := by
  unfold scoreTenths
  simp only [h, if_false]
  exact Nat.div_eq_of_lt_le (by omega) (by omega)

/-- C4: for every candidate skill set and resource, the relevance is
`100 × |related_skills − candidate| / |related_skills|` (rounded half-up, in
tenths); a resource whose related skills are all known scores 0, one entirely
of unknown skills scores 100 (1000 tenths), and one with empty
`related_skills` scores 0 and sorts last (every entry after a zero-relevance
entry in the sorted output also has relevance 0, so nothing useful follows
it). -/
theorem C4_resource_relevance_formula (candidate : Finset String) (res : LearningResource)
    (userSkills : List String) (resources : List LearningResource) :
    (normalize res.related_skills ≠ ∅ →
      relevance candidate res
        = roundHalfUpTenths ((100 * ((normalize res.related_skills) \ candidate).card : ℚ)
            / (normalize res.related_skills).card)) ∧
    (normalize res.related_skills ⊆ candidate → relevance candidate res = 0) ∧
    (normalize res.related_skills ≠ ∅ → normalize res.related_skills ∩ candidate = ∅ →
      relevance candidate res = 1000) ∧
    (normalize res.related_skills = ∅ → relevance candidate res = 0) ∧
    (∀ i j : Fin (recommendResources userSkills resources).length, i < j →
      ((recommendResources userSkills resources).get i).relevance = 0 →
      ((recommendResources userSkills resources).get j).relevance = 0) := by
  refine ⟨?_, ?_, ?_, ?_, ?_⟩
  · intro h
    have hcard : (normalize res.related_skills).card ≠ 0 := by
      simpa [Finset.card_eq_zero] using h
    unfold relevance
    simp only [h, if_false]
    exact scoreTenths_eq_roundHalfUp _ _ hcard
  · intro h
    have hdiff : normalize res.related_skills \ candidate = ∅ := Finset.sdiff_eq_empty_iff_subset.mpr h
    by_cases he : normalize res.related_skills = ∅
    · simp [relevance, he]
    · simp only [relevance, he, if_false, hdiff]
      simpa using scoreTenths_zero _
  · intro h hdisj
    have hdiff : normalize res.related_skills \ candidate = normalize res.related_skills := by
      rw [Finset.sdiff_eq_self_iff_disjoint, Finset.disjoint_left]
      intro a ha hc
      have : a ∈ normalize res.related_skills ∩ candidate := Finset.mem_inter.mpr ⟨ha, hc⟩
      simp [hdisj] at this
    have hcard : (normalize res.related_skills).card ≠ 0 := by
      simpa [Finset.card_eq_zero] using h
    unfold relevance
    simp only [h, if_false, hdiff]
    exact scoreTenths_self _ hcard
  · intro h
    unfold relevance
    simp [h]
  · intro i j hij hzero
    have hs : (recommendResources userSkills resources).Sorted resOrder :=
      List.sorted_insertionSort resOrder _
    have := hs.rel_get_of_lt hij
    unfold resOrder at this
    omega

theorem C4_resource_relevance_formula_witness :
    relevance ∅ ⟨0, ["a"]⟩ = 1000 ∧ relevance {"a"} ⟨0, ["a"]⟩ = 0 ∧
      relevance {"x"} ⟨1, []⟩ = 0 :=
  ⟨(C4_resource_relevance_formula ∅ ⟨0, ["a"]⟩ [] []).2.2.1 (by decide) (by decide),
   (C4_resource_relevance_formula {"a"} ⟨0, ["a"]⟩ [] []).2.1 (by decide),
   (C4_resource_relevance_formula {"x"} ⟨1, []⟩ [] []).2.2.2.1 (by decide)⟩

theorem scoreTenths_mono (m₁ m₂ r : Nat) (h : m₁ ≤ m₂) :
    scoreTenths m₁ r ≤ scoreTenths m₂ r := by
  unfold scoreTenths
  split
  · exact le_rfl
  · exact Nat.div_le_div_right (Nat.add_le_add_right (Nat.mul_le_mul_left 2000 h) r)

/-- C5: for every resource and candidate skill set, adding a skill that is
among the resource's related skills to the candidate set never increases that
resource's relevance. -/
theorem C5_relevance_antitone (candidate : Finset String) (res : LearningResource)
    (s : String) (_h : s ∈ normalize res.related_skills) :
    relevance (insert s candidate) res ≤ relevance candidate res := by
  by_cases he : normalize res.related_skills = ∅
  · simp [relevance, he]
  · simp only [relevance, he, if_false]
    refine scoreTenths_mono _ _ _ (Finset.card_le_card ?_)
    exact Finset.sdiff_subset_sdiff le_rfl (Finset.subset_insert s candidate)

theorem C5_relevance_antitone_witness :
    relevance (insert "a" ∅) ⟨0, ["a", "b"]⟩ ≤ relevance ∅ ⟨0, ["a", "b"]⟩ :=
  C5_relevance_antitone ∅ ⟨0, ["a", "b"]⟩ "a" (by decide)

theorem mem_unionRequired (s : String) (jobsReq : List (List String)) :
    s ∈ unionRequired jobsReq ↔ ∃ req ∈ jobsReq, s ∈ normalize req := by
  induction jobsReq with
  | nil => simp [unionRequired]
  | cons head tail ih =>
    simp only [unionRequired, List.foldr_cons, Finset.mem_union, List.mem_cons]
    constructor
    · rintro (h | h)
      · exact ⟨head, Or.inl rfl, h⟩
      · obtain ⟨req, hreq, hs⟩ := (ih : s ∈ unionRequired tail ↔ _).mp h
        exact ⟨req, Or.inr hreq, hs⟩
    · rintro ⟨req, hreq | hreq, hs⟩
      · exact Or.inl (hreq ▸ hs)
      · exact Or.inr ((ih : s ∈ unionRequired tail ↔ _).mpr ⟨req, hreq, hs⟩)

/-- C6: for every skill-gap analysis, the required-skill set is the union of
the postings' normalized required-skill sets, `skillGaps = required −
candidate`, `matchingSkills = candidate ∩ required`, and `matchPercentage` is
computed by the very formula of the Match Scorer (hence 0 when required is
empty); the two-job scenario with user skills `{"node.js"}` yields 3 required
skills, matchingSkills `{node.js}`, skillGaps `{postgresql, docker}` and
matchPercentage 33.3 (333 tenths). -/
theorem C6_skill_gap_analysis (userSkills : List String) (jobsReq : List (List String)) :
    (∀ s, s ∈ (analyzeSkillGap userSkills jobsReq).requiredSkills ↔
      ∃ req ∈ jobsReq, s ∈ normalize req) ∧
    (analyzeSkillGap userSkills jobsReq).skillGaps
      = (analyzeSkillGap userSkills jobsReq).requiredSkills \ normalize userSkills ∧
    (analyzeSkillGap userSkills jobsReq).matchingSkills
      = normalize userSkills ∩ (analyzeSkillGap userSkills jobsReq).requiredSkills ∧
    (analyzeSkillGap userSkills jobsReq).matchPercentage
      = (matchScore (normalize userSkills) (analyzeSkillGap userSkills jobsReq).requiredSkills).score ∧
    (analyzeSkillGap ["node.js"] [["Node.js", "PostgreSQL"], ["Node.js", "Docker"]]).requiredSkills
      = {"node.js", "postgresql", "docker"} ∧
    (analyzeSkillGap ["node.js"] [["Node.js", "PostgreSQL"], ["Node.js", "Docker"]]).skillGaps
      = {"postgresql", "docker"} ∧
    (analyzeSkillGap ["node.js"] [["Node.js", "PostgreSQL"], ["Node.js", "Docker"]]).matchingSkills
      = {"node.js"} ∧
    (analyzeSkillGap ["node.js"] [["Node.js", "PostgreSQL"], ["Node.js", "Docker"]]).matchPercentage
      = 333 ∧
    ({"node.js", "postgresql", "docker"} : Finset String).card = 3 ∧
    tenthsToPercent 333 = 33.3 := by
  refine ⟨fun s => mem_unionRequired s jobsReq, rfl, rfl, rfl, by decide, by decide, by decide,
    by decide, by decide, by norm_num [tenthsToPercent]⟩

/-- C7: for every provider response, extraction attempts a strict JSON parse,
falls back to the first balanced-brace substring on failure, succeeds exactly
when one of the two parses succeeds, and returns `MalformedAiResponse` (not an
empty result) when both fail; a response wrapping the JSON in prose still
yields the embedded object, as in the scenario response
`Sure! Here\x27s the JSON: \x7b"technical_skills":[…]\x7d`, which yields one
technical skill "Go". -/
theorem C7_extraction_parse_policy (response : String) :
    (∀ j, parseJson response = some j → extractJson response = Except.ok j) ∧
    (∀ sub j, parseJson response = none → firstBraceSubstring response = some sub →
      parseJson sub = some j → extractJson response = Except.ok j) ∧
    (parseJson response = none → firstBraceSubstring response = none →
      extractJson response = Except.error CoreError.MalformedAiResponse) ∧
    (∀ sub, parseJson response = none → firstBraceSubstring response = some sub →
      parseJson sub = none →
      extractJson response = Except.error CoreError.MalformedAiResponse) ∧
    ((∃ j, extractJson response = Except.ok j) ↔
      ((parseJson response).isSome ∨
        ∃ sub, firstBraceSubstring response = some sub ∧ (parseJson sub).isSome)) ∧
    extractJson "Sure! Here\x27s the JSON: \x7b\"technical_skills\":[\x7b\"name\":\"Go\",\"proficiency\":\"intermediate\"\x7d]\x7d"
      = Except.ok (Json.obj [("technical_skills",
          Json.arr [Json.obj [("name", Json.str "Go"),
            ("proficiency", Json.str "intermediate")]])]) := by
  refine ⟨?_, ?_, ?_, ?_, ?_, rfl⟩
  · intro j hj
    simp [extractJson, hj]
  · intro sub j h1 h2 h3
    simp [extractJson, h1, h2, h3]
  · intro h1 h2
    simp [extractJson, h1, h2]
  · intro sub h1 h2 h3
    simp [extractJson, h1, h2, h3]
  · constructor
    · rintro ⟨j, hj⟩
      obtain hps | ⟨v, hps⟩ : parseJson response = none ∨ ∃ v, parseJson response = some v := by
        cases parseJson response <;> simp
      · obtain hfb | ⟨sub, hfb⟩ :
            firstBraceSubstring response = none ∨ ∃ s, firstBraceSubstring response = some s := by
          cases firstBraceSubstring response <;> simp
        · simp [extractJson, hps, hfb] at hj
        · obtain hsub | ⟨w, hsub⟩ : parseJson sub = none ∨ ∃ w, parseJson sub = some w := by
            cases parseJson sub <;> simp
          · simp [extractJson, hps, hfb, hsub] at hj
          · exact Or.inr ⟨sub, hfb, by simp [hsub]⟩
      · exact Or.inl (by simp [hps])
    · rintro (h | ⟨sub, hfb, hsub⟩)
      · obtain ⟨j, hj⟩ := Option.isSome_iff_exists.mp h
        exact ⟨j, by simp [extractJson, hj]⟩
      · obtain ⟨j, hj⟩ := Option.isSome_iff_exists.mp hsub
        obtain hps | ⟨v, hps⟩ : parseJson response = none ∨ ∃ v, parseJson response = some v := by
          cases parseJson response <;> simp
        · exact ⟨j, by simp [extractJson, hps, hfb, hj]⟩
        · exact ⟨v, by simp [extractJson, hps]⟩

theorem C7_extraction_parse_policy_witness :
    extractJson "hello" = Except.error CoreError.MalformedAiResponse :=
  (C7_extraction_parse_policy "hello").2.2.1 (by rfl) (by rfl)

theorem refreshRec_skill_name (x : SkillInput) (r : ExtractedSkillRecord) :
    (refreshRec x r).skill_name = r.skill_name := by
  unfold refreshRec
  split <;> rfl

theorem any_key_iff (recs : List ExtractedSkillRecord) (k : String) :
    (recs.any fun r => r.skill_name == k) = true ↔ k ∈ keysOf recs := by
  simp only [List.any_eq_true, keysOf, List.mem_map, beq_iff_eq]

theorem keysOf_upsertSkill (recs : List ExtractedSkillRecord) (x : SkillInput) :
    keysOf (upsertSkill recs x) = keyInsert (keysOf recs) (canonical x.name) := by
  unfold upsertSkill keyInsert
  by_cases h : canonical x.name ∈ keysOf recs
  · rw [if_pos ((any_key_iff recs (canonical x.name)).mpr h), if_pos h]
    unfold keysOf
    rw [List.map_map]
    exact List.map_congr_left fun r _ => refreshRec_skill_name x r
  · rw [if_neg (fun hc => h ((any_key_iff recs _).mp hc)), if_neg h]
    unfold keysOf
    simp [newRec]

theorem lookupRec_upsertSkill (recs : List ExtractedSkillRecord) (x : SkillInput) (k : String) :
    lookupRec (upsertSkill recs x) k =
      if k = canonical x.name then some (newRec x) else lookupRec recs k := by
  unfold upsertSkill
  by_cases hmem : canonical x.name ∈ keysOf recs
  · rw [if_pos ((any_key_iff recs _).mpr hmem)]
    unfold lookupRec
    rw [List.find?_map (refreshRec x) recs]
    have hfun : ((fun r => r.skill_name == k) ∘ refreshRec x)
        = fun r : ExtractedSkillRecord => r.skill_name == k :=
      funext fun r => by simp [Function.comp_apply, refreshRec_skill_name]
    rw [hfun]
    by_cases hk : k = canonical x.name
    · rw [if_pos hk]
      have hex : ∃ r ∈ recs, (fun r : ExtractedSkillRecord => r.skill_name == k) r = true := by
        obtain ⟨r, hr, hkr⟩ := List.mem_map.mp hmem
        exact ⟨r, hr, by simp [hkr, hk]⟩
      obtain ⟨r, hfind⟩ := Option.isSome_iff_exists.mp (List.find?_isSome.mpr hex)
      rw [hfind]
      have hkey : r.skill_name = k := by simpa using List.find?_some hfind
      have hrn : refreshRec x r = newRec x := by
        unfold refreshRec newRec
        rw [if_pos (by simp [hkey, hk])]
        cases r
        simp_all
      show some (refreshRec x r) = some (newRec x)
      rw [hrn]
    · rw [if_neg hk]
      cases hfind : recs.find? fun r : ExtractedSkillRecord => r.skill_name == k with
      | none => rfl
      | some r =>
        have hkey : r.skill_name = k := by simpa using List.find?_some hfind
        have hnb : (r.skill_name == canonical x.name) = false := by
          simp only [beq_eq_false_iff_ne, ne_eq, hkey]
          exact hk
        have hrr : refreshRec x r = r := by
          unfold refreshRec
          rw [hnb]
          simp
        show some (refreshRec x r) = some r
        rw [hrr]
  · rw [if_neg (fun hc => hmem ((any_key_iff recs _).mp hc))]
    unfold lookupRec
    rw [List.find?_append]
    by_cases hk : k = canonical x.name
    · rw [if_pos hk]
      have hnone : (recs.find? fun r : ExtractedSkillRecord => r.skill_name == k) = none := by
        refine List.find?_eq_none.mpr fun r hr hpr => ?_
        refine hmem (List.mem_map.mpr ⟨r, hr, ?_⟩)
        have hkr : r.skill_name = k := by simpa using hpr
        rw [hkr, hk]
      have hone : (([newRec x]).find? fun r : ExtractedSkillRecord => r.skill_name == k)
          = some (newRec x) := by
        simp [newRec, List.find?, hk]
      rw [hnone, hone]
      rfl
    · rw [if_neg hk]
      have hbeq : (canonical x.name == k) = false := by
        simp only [beq_eq_false_iff_ne, ne_eq]
        exact fun hkk => hk hkk.symm
      have hlast : (([newRec x]).find? fun r : ExtractedSkillRecord => r.skill_name == k)
          = none := by
        simp [newRec, List.find?, hbeq]
      rw [hlast, Option.or_none]

theorem lookupRec_ext : ∀ (t₁ t₂ : List ExtractedSkillRecord),
    (keysOf t₁).Nodup → keysOf t₁ = keysOf t₂ →
    (∀ k, lookupRec t₁ k = lookupRec t₂ k) → t₁ = t₂
  | [], t₂, _, hkeys, _ => by
    unfold keysOf at hkeys
    exact (List.map_eq_nil_iff.mp hkeys.symm).symm
  | r :: rest, [], _, hkeys, _ => by simp [keysOf] at hkeys
  | r :: rest, r₂ :: rest₂, hnd, hkeys, hlk => by
    unfold keysOf at hkeys
    simp only [List.map_cons, List.cons.injEq] at hkeys
    obtain ⟨hhead, htail⟩ := hkeys
    have htail' : keysOf rest = keysOf rest₂ := htail
    have hnd' : (r.skill_name :: keysOf rest).Nodup := hnd
    obtain ⟨hndhead, hndtail⟩ := List.nodup_cons.mp hnd'
    have h1 : lookupRec (r :: rest) r.skill_name = some r := by
      unfold lookupRec
      rw [List.find?_cons_of_pos _ (by simp)]
    have h2 : lookupRec (r₂ :: rest₂) r.skill_name = some r₂ := by
      unfold lookupRec
      rw [List.find?_cons_of_pos _ (by simp [hhead])]
    have hr : r = r₂ := Option.some.inj ((h1.symm.trans (hlk r.skill_name)).trans h2)
    have hlktail : ∀ k, lookupRec rest k = lookupRec rest₂ k := by
      intro k
      by_cases hk : k = r.skill_name
      · have hn1 : lookupRec rest k = none := by
          refine List.find?_eq_none.mpr fun a ha hpa => ?_
          refine hndhead ?_
          have hak : a.skill_name = k := by simpa using hpa
          exact List.mem_map.mpr ⟨a, ha, hak.trans hk⟩
        have hn2 : lookupRec rest₂ k = none := by
          refine List.find?_eq_none.mpr fun a ha hpa => ?_
          refine hndhead ?_
          rw [show (keysOf rest : List String) = keysOf rest₂ from htail']
          have hak : a.skill_name = k := by simpa using hpa
          exact List.mem_map.mpr ⟨a, ha, hak.trans hk⟩
        rw [hn1, hn2]
      · have hb1 : ¬((fun a : ExtractedSkillRecord => a.skill_name == k) r) := fun h =>
          hk (beq_iff_eq.mp h).symm
        have hb2 : ¬((fun a : ExtractedSkillRecord => a.skill_name == k) r₂) := fun h =>
          hk (hhead.trans (beq_iff_eq.mp h)).symm
        have e1 : lookupRec (r :: rest) k = lookupRec rest k := by
          unfold lookupRec
          exact List.find?_cons_of_neg rest hb1
        have e2 : lookupRec (r₂ :: rest₂) k = lookupRec rest₂ k := by
          unfold lookupRec
          exact List.find?_cons_of_neg rest₂ hb2
        rw [← e1, ← e2]
        exact hlk k
    have hrest : rest = rest₂ := lookupRec_ext rest rest₂ hndtail htail' hlktail
    rw [hr, hrest]

theorem keysOf_mergeRecords (recs : List ExtractedSkillRecord) (xs : List SkillInput) :
    keysOf (mergeRecords recs xs) = keyFold (keysOf recs) xs := by
  induction xs generalizing recs with
  | nil => rfl
  | cons x rest ih =>
    show keysOf (mergeRecords (upsertSkill recs x) rest) = _
    rw [ih, keysOf_upsertSkill]
    rfl

theorem mem_keyInsert_of_mem (K : List String) (c a : String) (h : a ∈ K) :
    a ∈ keyInsert K c := by
  unfold keyInsert
  split
  · exact h
  · exact List.mem_append_left _ h

theorem self_mem_keyInsert (K : List String) (c : String) : c ∈ keyInsert K c := by
  unfold keyInsert
  split
  · assumption
  · exact List.mem_append_right _ (by simp)

theorem keyInsert_nodup (K : List String) (c : String) (h : K.Nodup) :
    (keyInsert K c).Nodup := by
  unfold keyInsert
  split
  · exact h
  · next hmem =>
    rw [List.nodup_append]
    exact ⟨h, List.nodup_singleton _, by simpa using hmem⟩

theorem mem_keyFold_of_mem (K : List String) (xs : List SkillInput) (a : String) (h : a ∈ K) :
    a ∈ keyFold K xs := by
  induction xs generalizing K with
  | nil => exact h
  | cons x rest ih => exact ih _ (mem_keyInsert_of_mem K (canonical x.name) a h)

theorem mem_keyFold_of_input (K : List String) (xs : List SkillInput) :
    ∀ x ∈ xs, canonical x.name ∈ keyFold K xs := by
  induction xs generalizing K with
  | nil => intro x hx; cases hx
  | cons y rest ih =>
    intro x hx
    rcases List.mem_cons.mp hx with h | h
    · subst h
      exact mem_keyFold_of_mem _ rest _ (self_mem_keyInsert K (canonical x.name))
    · exact ih _ x h

theorem keyFold_eq_of_all_mem (K : List String) : ∀ (xs : List SkillInput),
    (∀ x ∈ xs, canonical x.name ∈ K) → keyFold K xs = K
  | [], _ => rfl
  | y :: rest, h => by
    have hy : canonical y.name ∈ K := h y (List.mem_cons_self y rest)
    have hins : keyInsert K (canonical y.name) = K := by
      unfold keyInsert
      exact if_pos hy
    show keyFold (keyInsert K (canonical y.name)) rest = K
    rw [hins]
    exact keyFold_eq_of_all_mem K rest fun x hx => h x (List.mem_cons_of_mem _ hx)

theorem keyFold_nodup (K : List String) (xs : List SkillInput) (h : K.Nodup) :
    (keyFold K xs).Nodup := by
  induction xs generalizing K with
  | nil => exact h
  | cons y rest ih => exact ih _ (keyInsert_nodup K _ h)

theorem lookupRec_mergeRecords (recs : List ExtractedSkillRecord) (xs : List SkillInput)
    (k : String) :
    lookupRec (mergeRecords recs xs) k =
      match lastMatch xs k with
      | some x => some { skill_name := k, proficiency := x.proficiency, category := x.category }
      | none => lookupRec recs k := by
  induction xs generalizing recs with
  | nil => rfl
  | cons x rest ih =>
    show lookupRec (mergeRecords (upsertSkill recs x) rest) k = _
    rw [ih]
    cases hlm : lastMatch rest k with
    | some y =>
      have hcons : lastMatch (x :: rest) k = some y := by
        unfold lastMatch at hlm ⊢
        rw [List.reverse_cons, List.find?_append, hlm]
        rfl
      rw [hcons]
    | none =>
      rw [lookupRec_upsertSkill]
      by_cases hk : k = canonical x.name
      · have hcons : lastMatch (x :: rest) k = some x := by
          unfold lastMatch at hlm ⊢
          rw [List.reverse_cons, List.find?_append, hlm]
          simp [List.find?, hk]
        rw [hcons, if_pos hk]
        simp [newRec, hk]
      · have hbeq : (canonical x.name == k) = false := by
          simp only [beq_eq_false_iff_ne, ne_eq]
          exact fun hkk => hk hkk.symm
        have hcons : lastMatch (x :: rest) k = none := by
          unfold lastMatch at hlm ⊢
          rw [List.reverse_cons, List.find?_append, hlm]
          simp [List.find?, hbeq]
        rw [hcons, if_neg hk]

theorem mem_canonical_addRawSkill (raw : List String) (n a : String)
    (h : a ∈ raw.map canonical) : a ∈ (addRawSkill raw n).map canonical := by
  unfold addRawSkill
  split
  · exact h
  · rw [List.map_append]
    exact List.mem_append_left _ h

theorem mem_canonical_mergeRaw (raw : List String) (xs : List SkillInput) (a : String)
    (h : a ∈ raw.map canonical) : a ∈ (mergeRaw raw xs).map canonical := by
  induction xs generalizing raw with
  | nil => exact h
  | cons x rest ih => exact ih _ (mem_canonical_addRawSkill _ _ _ h)

theorem mem_canonical_after_add (raw : List String) (n : String) :
    canonical n ∈ (addRawSkill raw n).map canonical := by
  unfold addRawSkill
  split
  · next hany =>
    obtain ⟨s, hs, hcs⟩ := List.any_eq_true.mp hany
    exact List.mem_map.mpr ⟨s, hs, by simpa [beq_iff_eq] using hcs⟩
  · rw [List.map_append]
    exact List.mem_append_right _ (by simp)

theorem all_canonical_mem_mergeRaw (raw : List String) (xs : List SkillInput) :
    ∀ x ∈ xs, canonical x.name ∈ (mergeRaw raw xs).map canonical := by
  induction xs generalizing raw with
  | nil => intro x hx; cases hx
  | cons y rest ih =>
    intro x hx
    rcases List.mem_cons.mp hx with h | h
    · subst h
      exact mem_canonical_mergeRaw (addRawSkill raw x.name) rest _
        (mem_canonical_after_add raw x.name)
    · exact ih _ x h

theorem mergeRaw_eq_of_all_mem (raw : List String) : ∀ (xs : List SkillInput),
    (∀ x ∈ xs, canonical x.name ∈ raw.map canonical) → mergeRaw raw xs = raw
  | [], _ => rfl
  | y :: rest, h => by
    have hy : canonical y.name ∈ raw.map canonical := h y (List.mem_cons_self y rest)
    have hadd : addRawSkill raw y.name = raw := by
      unfold addRawSkill
      refine if_pos ?_
      obtain ⟨s, hs, hcs⟩ := List.mem_map.mp hy
      exact List.any_eq_true.mpr ⟨s, hs, by simp [beq_iff_eq, hcs]⟩
    show mergeRaw (addRawSkill raw y.name) rest = raw
    rw [hadd]
    exact mergeRaw_eq_of_all_mem raw rest fun x hx => h x (List.mem_cons_of_mem _ hx)

/-- C8: merging the same extracted skills twice is idempotent on the persisted
state — the rows keep at most one entry per skill-name key, and the second
merge changes neither the rows nor the raw skill list. -/
theorem C8_extract_merge_idempotent (st : UserSkillState) (xs : List SkillInput)
    (h : (keysOf st.records).Nodup) :
    (keysOf (mergeExtracted st xs).records).Nodup ∧
    mergeExtracted (mergeExtracted st xs) xs = mergeExtracted st xs := by
  have hkeys1 : keysOf (mergeRecords st.records xs) = keyFold (keysOf st.records) xs :=
    keysOf_mergeRecords _ _
  have hnd1 : (keysOf (mergeRecords st.records xs)).Nodup := by
    rw [hkeys1]
    exact keyFold_nodup _ _ h
  refine ⟨hnd1, ?_⟩
  have hrec : mergeRecords (mergeRecords st.records xs) xs = mergeRecords st.records xs := by
    have hkeq : keysOf (mergeRecords (mergeRecords st.records xs) xs)
        = keysOf (mergeRecords st.records xs) := by
      rw [keysOf_mergeRecords, hkeys1]
      exact keyFold_eq_of_all_mem _ xs fun x hx =>
        mem_keyFold_of_input (keysOf st.records) xs x hx
    refine lookupRec_ext _ _ (by rw [hkeq]; exact hnd1) hkeq fun k => ?_
    rw [lookupRec_mergeRecords, lookupRec_mergeRecords st.records xs k]
    cases lastMatch xs k with
    | some y => rfl
    | none => rfl
  have hraw : mergeRaw (mergeRaw st.rawSkills xs) xs = mergeRaw st.rawSkills xs :=
    mergeRaw_eq_of_all_mem _ xs (all_canonical_mem_mergeRaw st.rawSkills xs)
  show ({ records := mergeRecords (mergeRecords st.records xs) xs
          rawSkills := mergeRaw (mergeRaw st.rawSkills xs) xs } : UserSkillState)
      = { records := mergeRecords st.records xs, rawSkills := mergeRaw st.rawSkills xs }
  rw [hrec, hraw]

theorem C8_extract_merge_idempotent_witness :
    mergeExtracted (mergeExtracted ⟨[], []⟩ [⟨"Go", some "intermediate", none⟩])
        [⟨"Go", some "intermediate", none⟩]
      = mergeExtracted ⟨[], []⟩ [⟨"Go", some "intermediate", none⟩] :=
  (C8_extract_merge_idempotent ⟨[], []⟩ [⟨"Go", some "intermediate", none⟩] (by decide)).2

/-- C9: `updateRoadmapProgress` fails with `NotFound` whenever no roadmap with
the given id is owned by the caller (non-existent or cross-user alike), and on
that failure the stored state is returned byte-for-byte unchanged; when an
owned roadmap exists the operation succeeds instead. -/
theorem C9_update_progress_ownership (db : List CareerRoadmap) (rid owner pct : Nat)
    (phases : List Nat) (notes : String) :
    ((¬ ∃ r ∈ db, r.id = rid ∧ r.user_id = owner) →
      updateRoadmapProgress db rid owner pct phases notes
        = (Except.error CoreError.NotFound, db)) ∧
    ((∃ r ∈ db, r.id = rid ∧ r.user_id = owner) →
      ∃ r2, (updateRoadmapProgress db rid owner pct phases notes).1 = Except.ok r2) := by
  constructor
  · intro h
    have hfind : (db.find? fun r => r.id == rid && r.user_id == owner) = none := by
      refine List.find?_eq_none.mpr fun r hr hp => ?_
      refine h ⟨r, hr, ?_⟩
      simpa [Bool.and_eq_true, beq_iff_eq] using hp
    unfold updateRoadmapProgress
    rw [hfind]
  · intro h
    obtain ⟨r, hr, h1, h2⟩ := h
    have hex : ∃ r ∈ db, (fun r : CareerRoadmap => r.id == rid && r.user_id == owner) r = true :=
      ⟨r, hr, by simp [h1, h2]⟩
    obtain ⟨r0, hfind⟩ := Option.isSome_iff_exists.mp (List.find?_isSome.mpr hex)
    refine ⟨{ r0 with progress_percentage := pct, completed_phases := phases, notes := notes }, ?_⟩
    unfold updateRoadmapProgress
    rw [hfind]

theorem C9_update_progress_ownership_witness :
    updateRoadmapProgress
        [⟨1, 1, "t", "r", ⟨[], [], ""⟩, 0, [], ""⟩] 1 2 50 [1] "n"
      = (Except.error CoreError.NotFound, [⟨1, 1, "t", "r", ⟨[], [], ""⟩, 0, [], ""⟩]) :=
  (C9_update_progress_ownership _ 1 2 50 [1] "n").1 (by decide)

/-- C10: the Create operation persists a roadmap exactly when the AI-returned
structure has at least one phase with a non-empty topics list; every
successfully created roadmap starts at `progress_percentage = 0` with no
completed phases and is appended to the store, and invalid structures leave
the store untouched with an `InvalidInput` error. -/
theorem C10_create_roadmap_validation (db : List CareerRoadmap) (newId owner : Nat)
    (title role : String) (d : RoadmapData) :
    ((∃ p ∈ d.phases, p.topics ≠ []) ↔
      ∃ r, (createRoadmap db newId owner title role d).1 = Except.ok r) ∧
    (∀ r, (createRoadmap db newId owner title role d).1 = Except.ok r →
      r.progress_percentage = 0 ∧ r.completed_phases = [] ∧
      (createRoadmap db newId owner title role d).2 = db ++ [r]) ∧
    ((¬ ∃ p ∈ d.phases, p.topics ≠ []) →
      createRoadmap db newId owner title role d = (Except.error CoreError.InvalidInput, db)) := by
  have hval : validRoadmap d = true ↔ ∃ p ∈ d.phases, p.topics ≠ [] := by
    simp [validRoadmap, List.any_eq_true]
  by_cases hv : validRoadmap d = true
  · refine ⟨⟨fun _ => ⟨⟨newId, owner, title, role, d, 0, [], ""⟩, ?_⟩,
      fun _ => hval.mp hv⟩, ?_, fun hno => absurd (hval.mp hv) hno⟩
    · simp [createRoadmap, hv]
    · intro r hr
      have : (Except.ok (⟨newId, owner, title, role, d, 0, [], ""⟩ : CareerRoadmap)
            : Except CoreError CareerRoadmap)
          = Except.ok r := by
        rw [← hr]
        simp [createRoadmap, hv]
      obtain rfl := (Except.ok.inj this).symm
      refine ⟨rfl, rfl, ?_⟩
      simp [createRoadmap, hv]
  · have hvf : validRoadmap d = false := Bool.eq_false_iff.mpr hv
    refine ⟨⟨fun hp => absurd (hval.mpr hp) hv, ?_⟩, ?_, fun _ => by simp [createRoadmap, hvf]⟩
    · rintro ⟨r, hr⟩
      rw [show (createRoadmap db newId owner title role d).1
          = Except.error CoreError.InvalidInput from by simp [createRoadmap, hvf]] at hr
      cases hr
    · intro r hr
      rw [show (createRoadmap db newId owner title role d).1
          = Except.error CoreError.InvalidInput from by simp [createRoadmap, hvf]] at hr
      cases hr

theorem C10_create_roadmap_validation_witness :
    createRoadmap [] 1 1 "t" "r" ⟨[], [], ""⟩
      = (Except.error CoreError.InvalidInput, []) :=
  (C10_create_roadmap_validation [] 1 1 "t" "r" ⟨[], [], ""⟩).2.2 (by simp)

end CareerBridge
